import Mathlib

/-!
Verification of the trajectory alignment and deviation-metric engine of
`evaluate_motion_primitives_from_trajectory_controller`.

The source file `compare_planned_and_executed_trajectory.py` is shallowly
embedded here:

* a pandas `DataFrame` of floats becomes a `DataFrame α`: a list of column
  names and a list of rows, each row a list of values;
* the velocity-based trimming step of `compare_and_plot_joint_trajectories`
  (lines 33-38) and of `compare_and_plot_cartesian_trajectories`
  (lines 128-134) becomes `trimJoint` / `trimCart`;
* `compute_arc_length_parametrization`, `remove_duplicate_points`, the
  `interp1d`-based resampling and the RMSE computations are embedded further
  below over the real numbers (rationals where only order and field
  operations occur, so that the definitions stay executable).

Machine floats are modelled by exact ordered-field arithmetic.
-/

namespace TrajCompare

/-- A pandas data frame: ordered column names and rows of values.
After `pd.read_csv` the index is the default `RangeIndex 0, 1, ...`, so rows
are identified by their list position. -/
structure DataFrame (α : Type) where
  columns : List String
  rows : List (List α)
deriving DecidableEq, Repr

/-- `containsSub needle hay = true` iff `needle` occurs as a contiguous
substring of `hay`; this is Python's `needle in hay` on strings,
written on the underlying character lists. -/
def containsSub (needle : List Char) : List Char → Bool
  | [] => needle.isEmpty
  | c :: rest => needle.isPrefixOf (c :: rest) || containsSub needle rest

/-- The literal `"vel"` used in `[col for col in df_executed.columns if "vel" in col]`. -/
def velStr : String := "vel"

/-- `vel_cols = [col for col in df_executed.columns if "vel" in col]`. -/
def velCols (cols : List String) : List String :=
  cols.filter (fun c => containsSub velStr.data c.data)

/-- Reading the entry of a row under a column name: pandas selects a column
by name, i.e. by its (first) position among the column labels. -/
def rowVal {α : Type} [Zero α] (cols : List String) (row : List α) (c : String) : α :=
  row.getD (cols.indexOf c) 0

/-- `moving_mask = ~(df_executed[vel_cols] <= vel_threshold).all(axis=1)`:
one boolean per row, true iff not every velocity-column entry is `≤ t`. -/
def movingMask {α : Type} [LinearOrderedField α] (df : DataFrame α) (t : α) : List Bool :=
  df.rows.map (fun row => ! ((velCols df.columns).all (fun c => decide (rowVal df.columns row c ≤ t))))

/-- `Series.idxmax` on a boolean series with index `0..n-1`: the label of the
first occurrence of the maximum.  With at least one `true`, that is the first
`true`; on an all-`false` series the maximum is `false` and the first label is
returned. -/
def firstTrueIdx (mask : List Bool) : ℕ :=
  if true ∈ mask then mask.indexOf true else 0

/-- `Series.idxmax` on the reversed boolean series `mask[::-1]` (which keeps
the original labels `n-1, ..., 0`): the original label of the first occurrence
of the maximum in reversed order.  With at least one `true`, that is the last
`true`; on an all-`false` series the first label of the reversed series, i.e.
`n-1`, is returned. -/
def lastTrueIdx (mask : List Bool) : ℕ :=
  if true ∈ mask then mask.length - 1 - mask.reverse.indexOf true
  else mask.length - 1

/-- `df.loc[a:b].reset_index(drop=True)` on a default integer index:
the rows with positions `a` through `b`, both inclusive. -/
def sliceRows {α : Type} (rows : List (List α)) (a b : ℕ) : List (List α) :=
  (rows.take (b + 1)).drop a

/-- Lines 34-38 of `compare_and_plot_joint_trajectories` (and the body of the
guarded block in the Cartesian variant): slice the frame between the idxmax
of the moving mask and the idxmax of its reversal. -/
def trimCore {α : Type} [LinearOrderedField α] (df : DataFrame α) (t : α) : DataFrame α :=
  ⟨df.columns, sliceRows df.rows (firstTrueIdx (movingMask df t)) (lastTrueIdx (movingMask df t))⟩

/-- The trimming step of the joint-space pipeline: unconditional. -/
def trimJoint {α : Type} [LinearOrderedField α] (df : DataFrame α) (t : α) : DataFrame α :=
  trimCore df t

/-- The trimming step of the Cartesian pipeline: guarded by
`if vel_cols and vel_threshold > 0.0:` (a Python list is truthy iff nonempty). -/
def trimCart {α : Type} [LinearOrderedField α] (df : DataFrame α) (t : α) : DataFrame α :=
  if velCols df.columns ≠ [] ∧ 0 < t then trimCore df t else df

/-- The sample at position `i` is "moving": some velocity column strictly
exceeds the threshold (the signed comparison the code performs). -/
def Moving {α : Type} [LinearOrderedField α] (df : DataFrame α) (t : α) (i : ℕ) : Prop :=
  ∃ c ∈ velCols df.columns, t < rowVal df.columns (df.rows.getD i []) c

/-- Modelled from the spec (claim wording): the sample at position `i` is
moving when some velocity column exceeds the threshold *in absolute value*. -/
def AbsMoving {α : Type} [LinearOrderedField α] (df : DataFrame α) (t : α) (i : ℕ) : Prop :=
  ∃ c ∈ velCols df.columns, t < |rowVal df.columns (df.rows.getD i []) c|

instance {α : Type} [LinearOrderedField α] (df : DataFrame α) (t : α) (i : ℕ) :
    Decidable (Moving df t i) := by
  unfold Moving; infer_instance

instance {α : Type} [LinearOrderedField α] (df : DataFrame α) (t : α) (i : ℕ) :
    Decidable (AbsMoving df t i) := by
  unfold AbsMoving; infer_instance

/-- Modelled from the spec (claim wording): the boolean mask of `AbsMoving`. -/
def absMovingMask {α : Type} [LinearOrderedField α] (df : DataFrame α) (t : α) : List Bool :=
  df.rows.map (fun row => (velCols df.columns).any (fun c => decide (t < |rowVal df.columns row c|)))

/-- Modelled from the spec (claim wording of C1): trim to the maximal
contiguous sub-sequence bounded by the first and the last sample at which at
least one velocity channel exceeds the threshold in absolute value. -/
def trimSpecAbs {α : Type} [LinearOrderedField α] (df : DataFrame α) (t : α) : DataFrame α :=
  ⟨df.columns, sliceRows df.rows
    ((absMovingMask df t).indexOf true)
    ((absMovingMask df t).length - 1 - (absMovingMask df t).reverse.indexOf true)⟩

/-!
## Resampling (`interp1d` + `np.linspace`)

`scipy.interpolate.interp1d(s, vals, axis=0, kind='linear')` builds the
piecewise-linear interpolant through the nodes `(s i, vals i)`; evaluating it
inside the domain at `x` locates the segment `[s i, s (i+1)]` containing `x`
and interpolates linearly on it.  `vals` rows live in a vector space `V` over
the scalars `K` (numpy arrays of one or more channels, interpolated
componentwise along `axis=0`).
-/

/-- Linear interpolation on one segment between nodes `p` and `q`. -/
def interpPt {K V : Type} [LinearOrderedField K] [AddCommGroup V] [Module K V]
    (p q : K × V) (x : K) : V :=
  p.2 + ((x - p.1) / (q.1 - p.1)) • (q.2 - p.2)

/-- Piecewise-linear interpolation through a node list, evaluated at `x`:
use the first segment whose right node is `≥ x` (for in-domain `x` with
strictly increasing nodes this is the segment containing `x`, as located by
`interp1d`; out-of-domain evaluation raises in scipy and is not modelled). -/
def interpList {K V : Type} [LinearOrderedField K] [AddCommGroup V] [Module K V] :
    List (K × V) → K → V
  | [], _ => 0
  | [p], _ => p.2
  | p :: q :: rest, x => if x ≤ q.1 then interpPt p q x else interpList (q :: rest) x

/-- `np.linspace(0, 1, n)`: the `k`-th evaluation coordinate is `k/(n-1)`. -/
def linspace (K : Type) [LinearOrderedField K] (n : ℕ) : List K :=
  (List.range n).map (fun k : ℕ => (k : K) / ((n : K) - 1))

/-- `interp(np.linspace(0, 1, n_points))`: the resampled value sequence. -/
def resample {K V : Type} [LinearOrderedField K] [AddCommGroup V] [Module K V]
    (s : List K) (vals : List V) (n : ℕ) : List V :=
  (linspace K n).map (interpList (s.zip vals))

/-!
## Arc-length parametrization (`compute_arc_length_parametrization`)

The positions are 3-D Cartesian points; `np.diff(positions, axis=0)` gives the
consecutive differences, `np.linalg.norm(..., axis=1)` their Euclidean norms.
The two `ValueError`s of the source are the spec's `InsufficientPoints` and
`ZeroArcLength`.
-/

/-- Euclidean norm of the difference of two 3-D points: one row of
`np.linalg.norm(np.diff(positions, axis=0), axis=1)`. -/
noncomputable def dist3 (p q : ℝ × ℝ × ℝ) : ℝ :=
  Real.sqrt ((q.1 - p.1) ^ 2 + (q.2.1 - p.2.1) ^ 2 + (q.2.2 - p.2.2) ^ 2)

/-- `dists = np.linalg.norm(np.diff(positions, axis=0), axis=1)`. -/
noncomputable def consecDists (ps : List (ℝ × ℝ × ℝ)) : List ℝ :=
  (ps.zip ps.tail).map (fun pq => dist3 pq.1 pq.2)

/-- `np.cumsum`. -/
def cumsum : List ℝ → List ℝ
  | [] => []
  | a :: l => a :: (cumsum l).map (a + ·)

/-- The two failure modes of `compute_arc_length_parametrization`. -/
inductive ArcError
  | InsufficientPoints
  | ZeroArcLength
deriving DecidableEq, Repr

/-- `compute_arc_length_parametrization(positions)`: raise on fewer than two
points, raise on zero total arc length; otherwise prepend 0 to the cumulative
distances and divide by the final cumulative distance. -/
noncomputable def compute_arc_length_parametrization (positions : List (ℝ × ℝ × ℝ)) :
    Except ArcError (List ℝ) :=
  if positions.length < 2 then .error .InsufficientPoints
  else if (consecDists positions).sum = 0 then .error .ZeroArcLength
  else
    .ok ((0 :: cumsum (consecDists positions)).map
      (· / (0 :: cumsum (consecDists positions)).getLastD 0))

/-!
## Deviation metrics (RMSE)

Joint pipeline (lines 52-54):
`rmse = np.sqrt(np.mean((P - E) ** 2, axis=0))` and
`total_rmse = np.sqrt(np.mean((P - E) ** 2))`.
Cartesian pipeline (lines 175-178):
`squared_distances = np.sum(diffs ** 2, axis=1)` and
`rmse_3d = np.sqrt(np.mean(squared_distances))`.
Matrices are lists of rows (one row per resampled point, one entry per
channel).
-/

/-- `planned_resampled - executed_resampled`: elementwise matrix difference. -/
def matSub (P E : List (List ℝ)) : List (List ℝ) :=
  List.zipWith (List.zipWith (fun a b => a - b)) P E

/-- `M ** 2`: elementwise square. -/
def matSq (M : List (List ℝ)) : List (List ℝ) :=
  M.map (fun r => r.map (fun x => x ^ 2))

/-- `np.sum(M, axis=0)`: the elementwise sum of the rows. -/
def colSums : List (List ℝ) → List ℝ
  | [] => []
  | [r] => r
  | r :: rest => List.zipWith (fun a b => a + b) r (colSums rest)

/-- `np.mean(M, axis=0)`: column sums divided by the number of rows. -/
noncomputable def meanAxis0 (M : List (List ℝ)) : List ℝ :=
  (colSums M).map (fun x => x / (M.length : ℝ))

/-- `np.mean(M)` on a 2-D array: total sum divided by the size `rows*cols`. -/
noncomputable def meanAll (M : List (List ℝ)) : ℝ :=
  (M.map List.sum).sum / ((M.length : ℝ) * ((M.headD []).length : ℝ))

/-- `rmse = np.sqrt(np.mean((planned - executed) ** 2, axis=0))`. -/
noncomputable def rmse (P E : List (List ℝ)) : List ℝ :=
  (meanAxis0 (matSq (matSub P E))).map Real.sqrt

/-- `total_rmse = np.sqrt(np.mean((planned - executed) ** 2))`. -/
noncomputable def total_rmse (P E : List (List ℝ)) : ℝ :=
  Real.sqrt (meanAll (matSq (matSub P E)))

/-- `np.sum(M, axis=1)`: the per-row sums. -/
def sumAxis1 (M : List (List ℝ)) : List ℝ := M.map List.sum

/-- `np.mean` of a 1-D array. -/
noncomputable def meanList (l : List ℝ) : ℝ := l.sum / (l.length : ℝ)

/-- `rmse_3d = np.sqrt(np.mean(np.sum(diffs ** 2, axis=1)))`. -/
noncomputable def rmse_3d (P E : List (List ℝ)) : ℝ :=
  Real.sqrt (meanList (sumAxis1 (matSq (matSub P E))))

/-!
## Duplicate-point filter (`remove_duplicate_points`)

`np.unique(s, return_index=True)` returns the sorted distinct values of `s`
together with, for each distinct value, the index of its first occurrence in
`s`; the function then selects `s[unique_indices]` and
`positions[unique_indices]`.  (The sort is modelled with insertion sort; only
the sortedness matters.)
-/

/-- The sorted distinct values of `s`: the first component of `np.unique`. -/
def uniqueSorted {α : Type} [LinearOrder α] [DecidableEq α] (s : List α) : List α :=
  List.insertionSort (· ≤ ·) s.dedup

/-- The second component of `np.unique(s, return_index=True)`: for each sorted
distinct value, the index of its first occurrence in `s`. -/
def uniqueFirstIndices {α : Type} [LinearOrder α] [DecidableEq α] (s : List α) : List ℕ :=
  (uniqueSorted s).map (fun v => s.indexOf v)

/-- `remove_duplicate_points(s, positions)`:
`return s[unique_indices], positions[unique_indices]`. -/
def remove_duplicate_points {α β : Type} [LinearOrder α] [DecidableEq α]
    (s : List α) (positions : List β) : List α × List β :=
  ((uniqueFirstIndices s).filterMap (fun i => s[i]?),
   (uniqueFirstIndices s).filterMap (fun i => positions[i]?))

theorem getD_in_range {α : Type} (l : List α) (d : α) {i : ℕ} (h : i < l.length) :
    l.getD i d = l[i] := by
  simp [List.getD_eq_getElem?_getD, List.getElem?_eq_getElem h]

theorem getElem_lt_indexOf_ne {α : Type} [DecidableEq α] {l : List α} {a : α} {j : ℕ}
    (hj : j < l.length) (h : j < l.indexOf a) : l[j] ≠ a := by
  induction l generalizing j with
  | nil => simp at hj
  | cons b bs ih =>
    by_cases hba : b = a
    · subst hba; rw [List.indexOf_cons_self] at h; omega
    · rw [List.indexOf_cons_ne _ hba] at h
      cases j with
      | zero => simpa using hba
      | succ j =>
        simp only [List.getElem_cons_succ]
        exact ih (by simpa using hj) (by omega)

theorem movingMask_length {α : Type} [LinearOrderedField α] (df : DataFrame α) (t : α) :
    (movingMask df t).length = df.rows.length := by
  simp [movingMask]

theorem getElem?_indexOf_true {l : List Bool} (h : true ∈ l) :
    l[l.indexOf true]? = some true := by
  have hlt := List.indexOf_lt_length.2 h
  rw [List.getElem?_eq_getElem hlt]
  exact congrArg some (List.indexOf_get hlt)

theorem getElem?_lt_indexOf_false {l : List Bool} {j : ℕ}
    (hj : j < l.length) (h : j < l.indexOf true) : l[j]? = some false := by
  rw [List.getElem?_eq_getElem hj]
  have hne := getElem_lt_indexOf_ne (a := true) hj h
  cases hv : l[j] with
  | false => rfl
  | true => exact absurd hv hne

theorem movingMask_getElem {α : Type} [LinearOrderedField α] (df : DataFrame α) (t : α)
    {i : ℕ} (hi : i < df.rows.length) :
    (movingMask df t)[i]? = some true ↔ Moving df t i := by
  unfold movingMask Moving
  rw [List.getElem?_map, List.getElem?_eq_getElem hi]
  rw [getD_in_range _ _ hi]
  simp only [Option.map_some', Option.some.injEq, Bool.not_eq_true', List.all_eq_false,
    decide_eq_true_eq, decide_eq_false_iff_not, not_le]

/-- When some sample is moving, `firstTrueIdx` of the mask is the least true
index. -/
theorem firstTrueIdx_spec {mask : List Bool} (h : true ∈ mask) :
    firstTrueIdx mask < mask.length ∧
      mask[firstTrueIdx mask]? = some true ∧
      ∀ j < firstTrueIdx mask, mask[j]? = some false := by
  have hlt : mask.indexOf true < mask.length := List.indexOf_lt_length.2 h
  have hf : firstTrueIdx mask = mask.indexOf true := if_pos h
  refine ⟨by omega, ?_, ?_⟩
  · rw [hf]; exact getElem?_indexOf_true h
  · intro j hj
    rw [hf] at hj
    exact getElem?_lt_indexOf_false (by omega) hj

/-- When some sample is moving, `lastTrueIdx` of the mask is the greatest true
index. -/
theorem lastTrueIdx_spec {mask : List Bool} (h : true ∈ mask) :
    lastTrueIdx mask < mask.length ∧
      mask[lastTrueIdx mask]? = some true ∧
      ∀ j, lastTrueIdx mask < j → j < mask.length → mask[j]? = some false := by
  have hrev : true ∈ mask.reverse := by simpa using h
  have hlt : mask.reverse.indexOf true < mask.reverse.length := List.indexOf_lt_length.2 hrev
  have hlen : mask.reverse.length = mask.length := List.length_reverse mask
  have hn : 0 < mask.length := by
    rcases mask with _ | _ <;> simp_all
  have hb : lastTrueIdx mask = mask.length - 1 - mask.reverse.indexOf true := if_pos h
  refine ⟨by omega, ?_, ?_⟩
  · rw [hb, ← List.getElem?_reverse (by omega)]
    exact getElem?_indexOf_true hrev
  · intro j hbj hjn
    rw [hb] at hbj
    have hridx : mask.length - 1 - j < mask.reverse.indexOf true := by omega
    have hf := getElem?_lt_indexOf_false (by omega) hridx
    rw [List.getElem?_reverse (by omega)] at hf
    have hidx : mask.length - 1 - (mask.length - 1 - j) = j := by omega
    rwa [hidx] at hf

theorem noTrue_firstLast {mask : List Bool} (h : true ∉ mask) :
    firstTrueIdx mask = 0 ∧ lastTrueIdx mask = mask.length - 1 := by
  simp [firstTrueIdx, lastTrueIdx, h]

/-- Membership in the mask at a moving sample. -/
theorem mem_movingMask_of_moving {α : Type} [LinearOrderedField α] (df : DataFrame α) (t : α)
    {i : ℕ} (hi : i < df.rows.length) (hmov : Moving df t i) :
    true ∈ movingMask df t :=
  List.mem_iff_getElem?.2 ⟨i, (movingMask_getElem df t hi).2 hmov⟩

/-- If the mask holds no `true`, the slice spans the whole frame. -/
theorem trimCore_eq_self_of_no_true {α : Type} [LinearOrderedField α] (df : DataFrame α) (t : α)
    (hne : df.rows ≠ []) (hnm : true ∉ movingMask df t) : trimCore df t = df := by
  obtain ⟨hf, hl⟩ := noTrue_firstLast hnm
  have hmlen : (movingMask df t).length = df.rows.length := movingMask_length df t
  have hn : 0 < df.rows.length := List.length_pos.2 hne
  cases df with
  | mk cols rows =>
    simp only [trimCore, hf, hl, sliceRows, List.drop_zero, DataFrame.mk.injEq, true_and]
    simp only at hmlen hn
    rw [hmlen]
    rw [Nat.sub_add_cancel hn]
    exact List.take_length rows

namespace Claims

/-- C1 counterexample: on the executed frame with the single velocity column
`j_vel` valued `[-5], [0], [5]` and threshold `1`, the claim's absolute-value
trimming keeps all three samples (both `-5` and `5` exceed `1` in absolute
value), but the code's signed comparison `df[vel_cols] <= threshold` treats
the `-5` sample as not moving and returns only the last sample. -/
theorem trimmer_abs_value_counterexample :
    (∃ i, i < (⟨["j_vel"], [[-5], [0], [5]]⟩ : DataFrame ℚ).rows.length ∧
        AbsMoving (⟨["j_vel"], [[-5], [0], [5]]⟩ : DataFrame ℚ) 1 i) ∧
    trimJoint (⟨["j_vel"], [[-5], [0], [5]]⟩ : DataFrame ℚ) 1 ≠
      trimSpecAbs (⟨["j_vel"], [[-5], [0], [5]]⟩ : DataFrame ℚ) 1 := by
  constructor
  · exact ⟨0, by norm_num, by unfold AbsMoving; decide⟩
  · decide

/-- C1 (amended): for every executed frame and threshold such that some sample
has a velocity column whose value strictly exceeds the threshold (signed
comparison, not absolute value), the trimmer returns the maximal contiguous
sub-sequence of rows bounded by the first and the last such sample. -/
theorem trimmer_first_last_moving {α : Type} [LinearOrderedField α]
    (df : DataFrame α) (t : α)
    (h : ∃ i, i < df.rows.length ∧ Moving df t i) :
    ∃ a b, a ≤ b ∧ b < df.rows.length ∧ Moving df t a ∧ Moving df t b ∧
      (∀ i, i < df.rows.length → Moving df t i → a ≤ i ∧ i ≤ b) ∧
      (trimJoint df t).columns = df.columns ∧
      (trimJoint df t).rows = (df.rows.take (b + 1)).drop a := by
  obtain ⟨i, hi, hmov⟩ := h
  have hmem : true ∈ movingMask df t := mem_movingMask_of_moving df t hi hmov
  have hmlen : (movingMask df t).length = df.rows.length := movingMask_length df t
  obtain ⟨haf, hav, hamin⟩ := firstTrueIdx_spec hmem
  obtain ⟨hbf, hbv, hbmax⟩ := lastTrueIdx_spec hmem
  set a := firstTrueIdx (movingMask df t) with ha
  set b := lastTrueIdx (movingMask df t) with hb
  have hab : a ≤ b := by
    by_contra hcon
    have := hamin b (by omega)
    rw [hbv] at this
    simp at this
  have hmova : Moving df t a := (movingMask_getElem df t (by omega)).1 hav
  have hmovb : Moving df t b := (movingMask_getElem df t (by omega)).1 hbv
  refine ⟨a, b, hab, by omega, hmova, hmovb, ?_, rfl, rfl⟩
  intro j hj hjm
  have hjv : (movingMask df t)[j]? = some true := (movingMask_getElem df t hj).2 hjm
  constructor
  · by_contra hcon
    have := hamin j (by omega)
    rw [hjv] at this
    simp at this
  · by_contra hcon
    have := hbmax j (by omega) (by omega)
    rw [hjv] at this
    simp at this

/-- C1 witness: the boundary scenario from the spec, velocities
`[0,0,0,2,3,4,2,0,0,0]` with threshold `1`; additionally the trimmed frame
has exactly the 4 samples at positions 3 through 6. -/
theorem trimmer_first_last_moving_witness :
    (∃ i, i < (⟨["j_vel"], [[0], [0], [0], [2], [3], [4], [2], [0], [0], [0]]⟩ :
        DataFrame ℚ).rows.length ∧
      Moving (⟨["j_vel"], [[0], [0], [0], [2], [3], [4], [2], [0], [0], [0]]⟩ :
        DataFrame ℚ) 1 i) ∧
    (∃ a b, a ≤ b ∧
      b < (⟨["j_vel"], [[0], [0], [0], [2], [3], [4], [2], [0], [0], [0]]⟩ :
        DataFrame ℚ).rows.length ∧
      Moving (⟨["j_vel"], [[0], [0], [0], [2], [3], [4], [2], [0], [0], [0]]⟩ :
        DataFrame ℚ) 1 a ∧
      Moving (⟨["j_vel"], [[0], [0], [0], [2], [3], [4], [2], [0], [0], [0]]⟩ :
        DataFrame ℚ) 1 b ∧
      (∀ i, i < (⟨["j_vel"], [[0], [0], [0], [2], [3], [4], [2], [0], [0], [0]]⟩ :
          DataFrame ℚ).rows.length →
        Moving (⟨["j_vel"], [[0], [0], [0], [2], [3], [4], [2], [0], [0], [0]]⟩ :
          DataFrame ℚ) 1 i → a ≤ i ∧ i ≤ b) ∧
      (trimJoint (⟨["j_vel"], [[0], [0], [0], [2], [3], [4], [2], [0], [0], [0]]⟩ :
        DataFrame ℚ) 1).columns =
        (⟨["j_vel"], [[0], [0], [0], [2], [3], [4], [2], [0], [0], [0]]⟩ :
          DataFrame ℚ).columns ∧
      (trimJoint (⟨["j_vel"], [[0], [0], [0], [2], [3], [4], [2], [0], [0], [0]]⟩ :
        DataFrame ℚ) 1).rows =
        (((⟨["j_vel"], [[0], [0], [0], [2], [3], [4], [2], [0], [0], [0]]⟩ :
          DataFrame ℚ).rows.take (b + 1)).drop a)) ∧
    (trimJoint (⟨["j_vel"], [[0], [0], [0], [2], [3], [4], [2], [0], [0], [0]]⟩ :
      DataFrame ℚ) 1).rows = [[2], [3], [4], [2]] := by
  refine ⟨⟨3, by norm_num, by unfold Moving; decide⟩, ?_, by decide⟩
  exact trimmer_first_last_moving _ 1 ⟨3, by norm_num, by unfold Moving; decide⟩

/-- C5 counterexample: with a single velocity column valued `[0], [0]` and
threshold `1`, no sample exceeds the threshold, yet the code does not return
the single-sample slice of the first sample: `idxmax` on the reversed
all-false mask yields the *last* label, so the whole two-row frame is kept. -/
theorem trimmer_all_below_counterexample :
    (∀ i, i < (⟨["vel"], [[0], [0]]⟩ : DataFrame ℚ).rows.length →
        ¬ Moving (⟨["vel"], [[0], [0]]⟩ : DataFrame ℚ) 1 i) ∧
    trimJoint (⟨["vel"], [[0], [0]]⟩ : DataFrame ℚ) 1 ≠
      (⟨["vel"], [[0]]⟩ : DataFrame ℚ) := by
  constructor
  · decide
  · decide

/-- C5 (amended): when at no sample any velocity column exceeds the threshold,
the first index resolves to the first sample but the last index resolves to
the *last* sample (the `idxmax` of the reversed all-false mask is its first
label, i.e. the last original row), so the trimmer returns the input
unchanged rather than a single-sample slice. -/
theorem trimmer_all_below_returns_input {α : Type} [LinearOrderedField α]
    (df : DataFrame α) (t : α) (hne : df.rows ≠ [])
    (h : ∀ i, i < df.rows.length → ¬ Moving df t i) :
    trimJoint df t = df := by
  have hnm : true ∉ movingMask df t := by
    intro hmem
    obtain ⟨j, hj⟩ := List.mem_iff_getElem?.1 hmem
    have hjlt : j < df.rows.length := by
      have h2 := (List.getElem?_eq_some_iff.1 hj).1
      rwa [movingMask_length] at h2
    exact h j hjlt ((movingMask_getElem df t hjlt).1 hj)
  exact trimCore_eq_self_of_no_true df t hne hnm

/-- C5 witness: the counterexample frame, at which the amended claim applies
and returns both rows. -/
theorem trimmer_all_below_returns_input_witness :
    (⟨["vel"], [[0], [0]]⟩ : DataFrame ℚ).rows ≠ [] ∧
    trimJoint (⟨["vel"], [[0], [0]]⟩ : DataFrame ℚ) 1 =
      (⟨["vel"], [[0], [0]]⟩ : DataFrame ℚ) := by
  exact ⟨by decide, trimmer_all_below_returns_input _ 1 (by decide) (by decide)⟩

/-- C4 counterexample: the joint-space pipeline has no guard on the threshold;
with velocity column `[0], [1], [0]` and the non-positive threshold `0`, the
code trims to the single middle row rather than being a no-op. -/
theorem trim_nonpositive_threshold_counterexample :
    (0 : ℚ) ≤ 0 ∧
    trimJoint (⟨["j_vel"], [[0], [1], [0]]⟩ : DataFrame ℚ) 0 ≠
      (⟨["j_vel"], [[0], [1], [0]]⟩ : DataFrame ℚ) := by
  exact ⟨le_refl 0, by decide⟩

/-- C4 (amended): the no-op guard exists only in the Cartesian pipeline:
there, a non-positive threshold or an absence of velocity columns leaves the
frame unchanged.  The joint-space pipeline trims unconditionally; only in the
special case that no velocity column is present does it too return the rows
unchanged (the mask is all-false, and the slice spans the whole frame). -/
theorem trim_noop_guards (α : Type) [LinearOrderedField α] :
    (∀ (df : DataFrame α) (t : α), t ≤ 0 → trimCart df t = df) ∧
    (∀ (df : DataFrame α) (t : α), velCols df.columns = [] → trimCart df t = df) ∧
    (∀ (df : DataFrame α) (t : α), df.rows ≠ [] → velCols df.columns = [] →
      trimJoint df t = df) := by
  refine ⟨?_, ?_, ?_⟩
  · intro df t ht
    rw [trimCart, if_neg]
    rintro ⟨-, hpos⟩
    exact absurd ht (not_le.2 hpos)
  · intro df t hvc
    rw [trimCart, if_neg]
    rintro ⟨hne, -⟩
    exact hne hvc
  · intro df t hne hvc
    apply trimCore_eq_self_of_no_true df t hne
    intro hmem
    obtain ⟨row, -, hrow⟩ := List.mem_map.1 hmem
    rw [hvc] at hrow
    simp at hrow

/-- C4 witness: concrete frames on which each of the three no-op cases
applies. -/
theorem trim_noop_guards_witness :
    trimCart (⟨["j_vel"], [[5], [0]]⟩ : DataFrame ℚ) 0 = ⟨["j_vel"], [[5], [0]]⟩ ∧
    trimCart (⟨["j_pos"], [[5], [0]]⟩ : DataFrame ℚ) 1 = ⟨["j_pos"], [[5], [0]]⟩ ∧
    trimJoint (⟨["j_pos"], [[5], [0]]⟩ : DataFrame ℚ) 1 = ⟨["j_pos"], [[5], [0]]⟩ := by
  refine ⟨(trim_noop_guards ℚ).1 _ 0 (le_refl 0),
    (trim_noop_guards ℚ).2.1 _ 1 (by decide),
    (trim_noop_guards ℚ).2.2 _ 1 (by decide) (by decide)⟩

end Claims

theorem isPrefixOf_eq_true_iff {α : Type} [DecidableEq α] (n h : List α) :
    n.isPrefixOf h = true ↔ ∃ t, h = n ++ t := by
  induction n generalizing h with
  | nil => simp
  | cons a as ih =>
    cases h with
    | nil => simp
    | cons b bs =>
      rw [List.isPrefixOf_cons₂]
      rw [Bool.and_eq_true, beq_iff_eq, ih]
      constructor
      · rintro ⟨rfl, t, rfl⟩
        exact ⟨t, rfl⟩
      · rintro ⟨t, ht⟩
        rw [List.cons_append] at ht
        obtain ⟨rfl, hbs⟩ := List.cons.inj ht
        exact ⟨rfl, t, hbs⟩

theorem containsSub_eq_true_iff (needle hay : List Char) :
    containsSub needle hay = true ↔ ∃ l r, hay = l ++ (needle ++ r) := by
  induction hay with
  | nil =>
    rw [containsSub, List.isEmpty_iff]
    constructor
    · rintro rfl
      exact ⟨[], [], rfl⟩
    · rintro ⟨l, r, hl⟩
      rcases l with _ | ⟨x, xs⟩
      · rcases needle with _ | ⟨y, ys⟩
        · rfl
        · simp at hl
      · simp at hl
  | cons c cs ih =>
    rw [containsSub, Bool.or_eq_true, ih, isPrefixOf_eq_true_iff]
    constructor
    · rintro (⟨t, ht⟩ | ⟨l, r, rfl⟩)
      · exact ⟨[], t, by simp [ht]⟩
      · exact ⟨c :: l, r, rfl⟩
    · rintro ⟨l, r, hl⟩
      cases l with
      | nil =>
        exact Or.inl ⟨r, by simpa using hl⟩
      | cons x xs =>
        rw [List.cons_append] at hl
        obtain ⟨rfl, hcs⟩ := List.cons.inj hl
        exact Or.inr ⟨xs, r, hcs⟩

namespace Claims

/-- C10: in both pipelines the trimmer's velocity channels are exactly the
executed frame's own column names containing the substring `"vel"` (no
caller-supplied velocity list exists in either call), the moving mask at a
row holds iff one of *those* columns exceeds the threshold there, and
substring matching is what decides participation: the non-velocity name
`"level"` participates while the velocity column renamed `"speed_j1"` is
ignored. -/
theorem velocity_channels_by_substring (α : Type) [LinearOrderedField α] :
    (∀ (cols : List String) (c : String),
        c ∈ velCols cols ↔ c ∈ cols ∧ ∃ l r, c.data = l ++ (velStr.data ++ r)) ∧
    (∀ (df : DataFrame α) (t : α) (i : ℕ), i < df.rows.length →
        ((movingMask df t)[i]? = some true ↔
          ∃ c ∈ velCols df.columns, t < rowVal df.columns (df.rows.getD i []) c)) ∧
    velCols ["level", "speed_j1"] = ["level"] := by
  refine ⟨?_, ?_, by decide⟩
  · intro cols c
    rw [velCols, List.mem_filter, containsSub_eq_true_iff]
  · intro df t i hi
    exact movingMask_getElem df t hi

/-- C10 witness: the characterization applied to a concrete frame whose only
`"vel"`-matching column is the non-velocity column `"level"`. -/
theorem velocity_channels_by_substring_witness :
    ("level" ∈ velCols ["level", "speed_j1"] ↔
      "level" ∈ ["level", "speed_j1"] ∧ ∃ l r, "level".data = l ++ (velStr.data ++ r)) ∧
    ((movingMask (⟨["level", "speed_j1"], [[0, 9], [2, 0]]⟩ : DataFrame ℚ) 1)[1]? =
        some true ↔
      ∃ c ∈ velCols ["level", "speed_j1"],
        1 < rowVal ["level", "speed_j1"]
          ((⟨["level", "speed_j1"], [[0, 9], [2, 0]]⟩ : DataFrame ℚ).rows.getD 1 []) c) := by
  exact ⟨(velocity_channels_by_substring ℚ).1 ["level", "speed_j1"] "level",
    (velocity_channels_by_substring ℚ).2.1 ⟨["level", "speed_j1"], [[0, 9], [2, 0]]⟩ 1 1
      (by decide)⟩

end Claims

theorem chain'_fst_zip {K V : Type} {r : K → K → Prop} :
    ∀ {s : List K} {vals : List V}, s.Chain' r →
      (s.zip vals).Chain' (fun p q => r p.1 q.1) := by
  intro s
  induction s with
  | nil => intro vals _; simp
  | cons a s ih =>
    intro vals h
    cases vals with
    | nil => simp
    | cons b vs =>
      rw [List.zip_cons_cons, List.chain'_cons']
      refine ⟨?_, ih h.tail⟩
      intro y hy
      cases s with
      | nil => simp at hy
      | cons c s2 =>
        cases vs with
        | nil => simp at hy
        | cons d vs2 =>
          rw [List.zip_cons_cons, List.head?_cons, Option.mem_some_iff] at hy
          subst hy
          exact (List.chain'_cons.1 h).1

theorem chain'_fst_lt_getLastD {K V : Type} [Preorder K] :
    ∀ (rs : List (K × V)) (q r : K × V),
      (q :: r :: rs).Chain' (fun u v => u.1 < v.1) → q.1 < (rs.getLastD r).1 := by
  intro rs
  induction rs with
  | nil => intro q r h; simpa using (List.chain'_cons.1 h).1
  | cons a as ih =>
    intro q r h
    have h1 : q.1 < r.1 := (List.chain'_cons.1 h).1
    have h2 := ih r a (List.chain'_cons.1 h).2
    rw [List.getLastD_cons]
    exact lt_trans h1 h2

/-- At the first node's coordinate, the interpolant returns the first value. -/
theorem interpList_head {K V : Type} [LinearOrderedField K] [AddCommGroup V] [Module K V]
    (p : K × V) (l : List (K × V)) (h : (p :: l).Chain' (fun u v => u.1 < v.1)) :
    interpList (p :: l) p.1 = p.2 := by
  cases l with
  | nil => rfl
  | cons q rest =>
    simp only [interpList]
    rw [if_pos (le_of_lt (List.chain'_cons.1 h).1)]
    unfold interpPt
    rw [sub_self, zero_div, zero_smul, add_zero]

/-- At the last node's coordinate, the interpolant returns the last value. -/
theorem interpList_last {K V : Type} [LinearOrderedField K] [AddCommGroup V] [Module K V] :
    ∀ (rest : List (K × V)) (p q : K × V),
      (p :: q :: rest).Chain' (fun u v => u.1 < v.1) →
      interpList (p :: q :: rest) ((rest.getLastD q).1) = (rest.getLastD q).2 := by
  intro rest
  induction rest with
  | nil =>
    intro p q h
    have hpq : p.1 < q.1 := (List.chain'_cons.1 h).1
    simp only [List.getLastD_nil, interpList]
    rw [if_pos (le_refl q.1)]
    unfold interpPt
    rw [div_self (sub_ne_zero.2 (ne_of_gt hpq)), one_smul]
    abel
  | cons r rs ih =>
    intro p q h
    have hch : (q :: r :: rs).Chain' (fun u v => u.1 < v.1) := (List.chain'_cons.1 h).2
    have hql : q.1 < (rs.getLastD r).1 := chain'_fst_lt_getLastD rs q r hch
    rw [List.getLastD_cons]
    simp only [interpList]
    rw [if_neg (not_le.2 hql)]
    exact ih q r hch

theorem zip_getLastD {K V : Type} :
    ∀ (s : List K) (vals : List V) (a : K) (b : V), s.length = vals.length →
      (s.zip vals).getLastD (a, b) = (s.getLastD a, vals.getLastD b) := by
  intro s
  induction s with
  | nil =>
    intro vals a b h
    cases vals with
    | nil => rfl
    | cons y ys => simp at h
  | cons x xs ih =>
    intro vals a b h
    cases vals with
    | nil => simp at h
    | cons y ys =>
      rw [List.zip_cons_cons, List.getLastD_cons, List.getLastD_cons, List.getLastD_cons]
      exact ih ys x y (by simpa using h)

theorem getLast?_eq_some_getLastD {α : Type} :
    ∀ (x : α) (xs : List α) (d : α), (x :: xs).getLast? = some ((x :: xs).getLastD d) := by
  intro x xs
  induction xs generalizing x with
  | nil => intro d; rfl
  | cons y ys ih =>
    intro d
    rw [List.getLast?_cons_cons, List.getLastD_cons]
    exact ih y x

namespace Claims

/-- C3: for a strictly increasing coordinate sequence of length ≥ 2 spanning
`[0, 1]`, matching values and `n_points ≥ 2`, the resampler returns exactly
`n_points` values, the `k`-th being the piecewise-linear interpolant evaluated
at `k/(n_points-1)`; the evaluation grid is uniformly spaced with first
coordinate 0 and last coordinate 1, and accordingly the first resampled value
is the value at coordinate 0 (the first input value) and the last is the value
at coordinate 1 (the last input value). -/
theorem resampler_uniform_grid {K V : Type} [LinearOrderedField K] [AddCommGroup V]
    [Module K V] (s : List K) (vals : List V) (n : ℕ)
    (hchain : s.Chain' (· < ·)) (hlen2 : 2 ≤ s.length) (hlen : s.length = vals.length)
    (h0 : s[0]? = some 0) (h1 : s.getLastD 0 = 1) (hn : 2 ≤ n) :
    (resample s vals n).length = n ∧
    (∀ k, k < n → (resample s vals n)[k]? =
      some (interpList (s.zip vals) ((k : K) / ((n : K) - 1)))) ∧
    (linspace K n)[0]? = some 0 ∧
    (linspace K n)[n - 1]? = some 1 ∧
    (∀ k x y, k + 1 < n → (linspace K n)[k]? = some x →
      (linspace K n)[k + 1]? = some y → y - x = 1 / ((n : K) - 1)) ∧
    (resample s vals n)[0]? = vals[0]? ∧
    (resample s vals n)[n - 1]? = vals[vals.length - 1]? := by
  have h1n : (1 : K) < (n : K) := by exact_mod_cast hn
  have hd : ((n : K) - 1) ≠ 0 := sub_ne_zero.2 (ne_of_gt h1n)
  obtain ⟨s0, s', rfl⟩ : ∃ a l, s = a :: l := by
    cases s with
    | nil => simp at hlen2
    | cons a l => exact ⟨a, l, rfl⟩
  obtain ⟨s1, s'', rfl⟩ : ∃ a l, s' = a :: l := by
    cases s' with
    | nil => simp at hlen2
    | cons a l => exact ⟨a, l, rfl⟩
  obtain ⟨v0, v', rfl⟩ : ∃ a l, vals = a :: l := by
    cases vals with
    | nil => rw [List.length_nil] at hlen; omega
    | cons a l => exact ⟨a, l, rfl⟩
  obtain ⟨v1, v'', rfl⟩ : ∃ a l, v' = a :: l := by
    cases v' with
    | nil => simp only [List.length_cons, List.length_nil] at hlen; omega
    | cons a l => exact ⟨a, l, rfl⟩
  have hs0 : s0 = 0 := by simpa using h0
  subst hs0
  have hlen'' : s''.length = v''.length := by
    simp only [List.length_cons] at hlen; omega
  have hlin : ∀ k, k < n → (linspace K n)[k]? = some ((k : K) / ((n : K) - 1)) := by
    intro k hk
    rw [linspace, List.getElem?_map, List.getElem?_range hk]
    rfl
  have hres : ∀ k, k < n →
      (resample ((0 : K) :: s1 :: s'') (v0 :: v1 :: v'') n)[k]? =
        some (interpList (((0 : K) :: s1 :: s'').zip (v0 :: v1 :: v''))
          ((k : K) / ((n : K) - 1))) := by
    intro k hk
    rw [resample, List.getElem?_map, hlin k hk]
    rfl
  have hzip := @chain'_fst_zip K V (· < ·) ((0 : K) :: s1 :: s'') (v0 :: v1 :: v'') hchain
  have hzip' : (((0 : K), v0) :: (s1, v1) :: s''.zip v'').Chain'
      (fun u v => u.1 < v.1) := by
    simpa [List.zip_cons_cons] using hzip
  refine ⟨by simp [resample, linspace], hres, ?_, ?_, ?_, ?_, ?_⟩
  · rw [hlin 0 (by omega)]
    norm_num
  · rw [hlin (n - 1) (by omega)]
    congr 1
    rw [Nat.cast_sub (by omega), Nat.cast_one, div_self hd]
  · intro k x y hk hx hy
    rw [hlin k (by omega)] at hx
    rw [hlin (k + 1) (by omega)] at hy
    obtain rfl := Option.some.inj hx
    obtain rfl := Option.some.inj hy
    rw [div_sub_div_same]
    congr 1
    push_cast
    ring
  · rw [hres 0 (by omega)]
    have hh := interpList_head ((0 : K), v0) ((s1, v1) :: s''.zip v'') hzip'
    simp only [List.zip_cons_cons, Nat.cast_zero, zero_div]
    rw [show interpList (((0 : K), v0) :: (s1, v1) :: s''.zip v'') 0 = v0 from hh]
    rfl
  · rw [hres (n - 1) (by omega)]
    have hcoord : s''.getLastD s1 = 1 := by
      rw [List.getLastD_cons, List.getLastD_cons] at h1
      exact h1
    have hlast2 : interpList (((0 : K), v0) :: (s1, v1) :: s''.zip v'') 1 =
        v''.getLastD v1 := by
      have hlast := interpList_last (s''.zip v'') ((0 : K), v0) (s1, v1) hzip'
      rw [zip_getLastD s'' v'' s1 v1 hlen''] at hlast
      rw [← hcoord]
      exact hlast
    simp only [List.zip_cons_cons]
    rw [show ((n - 1 : ℕ) : K) / ((n : K) - 1) = 1 by
      rw [Nat.cast_sub (by omega), Nat.cast_one, div_self hd]]
    rw [hlast2]
    rw [← List.getLast?_eq_getElem?, getLast?_eq_some_getLastD _ _ v0]
    rw [List.getLastD_cons, List.getLastD_cons]

/-- C3 witness: coordinates `[0, 1]` with values `[5, 9]` resampled to
3 points. -/
theorem resampler_uniform_grid_witness :
    ([(0 : ℚ), 1].Chain' (· < ·) ∧ 2 ≤ [(0 : ℚ), 1].length ∧
      [(0 : ℚ), 1].length = [(5 : ℚ), 9].length ∧
      [(0 : ℚ), 1][0]? = some 0 ∧ [(0 : ℚ), 1].getLastD 0 = 1 ∧ 2 ≤ 3) ∧
    ((resample [(0 : ℚ), 1] [(5 : ℚ), 9] 3).length = 3 ∧
      (∀ k : ℕ, k < 3 → (resample [(0 : ℚ), 1] [(5 : ℚ), 9] 3)[k]? =
        some (interpList ([(0 : ℚ), 1].zip [(5 : ℚ), 9])
          ((k : ℚ) / (((3 : ℕ) : ℚ) - 1)))) ∧
      (linspace ℚ 3)[0]? = some 0 ∧
      (linspace ℚ 3)[3 - 1]? = some 1 ∧
      (∀ (k : ℕ) (x y : ℚ), k + 1 < 3 → (linspace ℚ 3)[k]? = some x →
        (linspace ℚ 3)[k + 1]? = some y → y - x = 1 / (((3 : ℕ) : ℚ) - 1)) ∧
      (resample [(0 : ℚ), 1] [(5 : ℚ), 9] 3)[0]? = [(5 : ℚ), 9][0]? ∧
      (resample [(0 : ℚ), 1] [(5 : ℚ), 9] 3)[3 - 1]? =
        ([(5 : ℚ), 9])[([(5 : ℚ), 9]).length - 1]?) := by
  have hch : [(0 : ℚ), 1].Chain' (· < ·) := by
    rw [List.chain'_cons]
    exact ⟨by norm_num, List.chain'_singleton 1⟩
  refine ⟨⟨hch, by norm_num, by norm_num, by norm_num, by norm_num, by norm_num⟩, ?_⟩
  exact resampler_uniform_grid [(0 : ℚ), 1] [(5 : ℚ), 9] 3
    hch (by norm_num) (by norm_num) (by norm_num) (by norm_num) (by norm_num)

end Claims

theorem cumsum_length : ∀ l : List ℝ, (cumsum l).length = l.length := by
  intro l
  induction l with
  | nil => rfl
  | cons a l ih => simp [cumsum, ih]

theorem cumsum_getElem? : ∀ (l : List ℝ) (i : ℕ), i < l.length →
    (cumsum l)[i]? = some ((l.take (i + 1)).sum) := by
  intro l
  induction l with
  | nil => intro i hi; simp at hi
  | cons a l ih =>
    intro i hi
    cases i with
    | zero => simp [cumsum]
    | succ j =>
      show (a :: (cumsum l).map (a + ·))[j + 1]? = _
      rw [List.getElem?_cons_succ, List.getElem?_map, ih j (by simpa using hi)]
      rw [List.take_succ_cons, List.sum_cons]
      rfl

theorem map_getLastD {α β : Type} (f : α → β) :
    ∀ (xs : List α) (x : α) (d : β) (d2 : α),
      ((x :: xs).map f).getLastD d = f ((x :: xs).getLastD d2) := by
  intro xs
  induction xs with
  | nil => intro x d d2; rfl
  | cons y ys ih =>
    intro x d d2
    rw [List.map_cons, List.getLastD_cons, List.getLastD_cons]
    exact ih y (f x) x

theorem cumsum_getLastD : ∀ (l : List ℝ) (a d : ℝ),
    (cumsum (a :: l)).getLastD d = a + l.sum := by
  intro l
  induction l with
  | nil => intro a d; simp [cumsum]
  | cons b bs ih =>
    intro a d
    show (a :: (cumsum (b :: bs)).map (a + ·)).getLastD d = a + (b :: bs).sum
    rw [List.getLastD_cons]
    have h1 : cumsum (b :: bs) = b :: (cumsum bs).map (b + ·) := rfl
    rw [h1, map_getLastD (a + ·) ((cumsum bs).map (b + ·)) b a b, ← h1, ih b b]
    rw [List.sum_cons]

/-- The `i`-th entry of `[0] ++ cumsum l` is the sum of the first `i` entries
of `l`. -/
theorem arc_getElem? (l : List ℝ) (i : ℕ) (hi : i < l.length + 1) :
    (0 :: cumsum l)[i]? = some ((l.take i).sum) := by
  cases i with
  | zero => simp
  | succ j =>
    rw [List.getElem?_cons_succ]
    exact cumsum_getElem? l j (by omega)

theorem consecDists_length (ps : List (ℝ × ℝ × ℝ)) :
    (consecDists ps).length = ps.length - 1 := by
  rw [consecDists, List.length_map, List.length_zip, List.length_tail]
  omega

theorem consecDists_nonneg (ps : List (ℝ × ℝ × ℝ)) :
    ∀ x ∈ consecDists ps, 0 ≤ x := by
  intro x hx
  obtain ⟨pq, _, rfl⟩ := List.mem_map.1 hx
  exact Real.sqrt_nonneg _

theorem take_sum_le_sum {l : List ℝ} (hnn : ∀ x ∈ l, 0 ≤ x) (i : ℕ) :
    (l.take i).sum ≤ l.sum := by
  conv_rhs => rw [← List.take_append_drop i l]
  rw [List.sum_append]
  have h0 : 0 ≤ (l.drop i).sum :=
    List.sum_nonneg (fun x hx => hnn x (List.mem_of_mem_drop hx))
  linarith

theorem take_sum_nonneg {l : List ℝ} (hnn : ∀ x ∈ l, 0 ≤ x) (i : ℕ) :
    0 ≤ (l.take i).sum :=
  List.sum_nonneg (fun x hx => hnn x (List.mem_of_mem_take hx))

theorem take_sum_mono {l : List ℝ} (hnn : ∀ x ∈ l, 0 ≤ x) (i : ℕ) :
    (l.take i).sum ≤ (l.take (i + 1)).sum := by
  rw [List.take_succ, List.sum_append]
  have h0 : 0 ≤ (l[i]?.toList).sum := by
    cases h : l[i]? with
    | none => simp
    | some a =>
      simp only [Option.toList_some, List.sum_cons, List.sum_nil, add_zero]
      obtain ⟨hlt, heq⟩ := List.getElem?_eq_some_iff.1 h
      exact hnn a (heq ▸ List.getElem_mem hlt)
  linarith

namespace Claims

/-- C2: for ≥ 2 points of nonzero total consecutive distance, the arc-length
parametrizer returns a list of the same length whose `i`-th entry is the sum
of the first `i` distances divided by the total; entries lie in `[0, 1]`, are
non-decreasing, start at 0 and end at exactly 1. -/
theorem arc_length_parametrization_spec (positions : List (ℝ × ℝ × ℝ))
    (hlen : 2 ≤ positions.length)
    (hsum : (consecDists positions).sum ≠ 0) :
    ∃ r, compute_arc_length_parametrization positions = .ok r ∧
      r.length = positions.length ∧
      (∀ i, i < r.length → r[i]? =
        some (((consecDists positions).take i).sum / (consecDists positions).sum)) ∧
      (∀ x ∈ r, 0 ≤ x ∧ x ≤ 1) ∧
      (∀ i x y, r[i]? = some x → r[i + 1]? = some y → x ≤ y) ∧
      r[0]? = some 0 ∧
      r.getLastD 0 = 1 := by
  have hlnn := consecDists_nonneg positions
  have hLlen : (consecDists positions).length = positions.length - 1 :=
    consecDists_length positions
  obtain ⟨d0, l', hcd⟩ : ∃ a l, consecDists positions = a :: l := by
    cases hc : consecDists positions with
    | nil => rw [hc] at hLlen; simp at hLlen; omega
    | cons a l => exact ⟨a, l, rfl⟩
  have hTnonneg : 0 ≤ (consecDists positions).sum := List.sum_nonneg hlnn
  have hTpos : 0 < (consecDists positions).sum := lt_of_le_of_ne hTnonneg (Ne.symm hsum)
  have hlast : (0 :: cumsum (consecDists positions)).getLastD 0 =
      (consecDists positions).sum := by
    rw [List.getLastD_cons, hcd, cumsum_getLastD, ← List.sum_cons]
  have hchar : ∀ i, i < (consecDists positions).length + 1 →
      ((0 :: cumsum (consecDists positions)).map
        (· / (0 :: cumsum (consecDists positions)).getLastD 0))[i]? =
      some (((consecDists positions).take i).sum / (consecDists positions).sum) := by
    intro i hi
    rw [List.getElem?_map, arc_getElem? _ i hi, hlast]
    rfl
  have hrlen : ((0 :: cumsum (consecDists positions)).map
      (· / (0 :: cumsum (consecDists positions)).getLastD 0)).length =
      positions.length := by
    rw [List.length_map, List.length_cons, cumsum_length, hLlen]
    omega
  unfold compute_arc_length_parametrization
  rw [if_neg (not_lt.2 hlen), if_neg hsum]
  refine ⟨_, rfl, hrlen, ?_, ?_, ?_, ?_, ?_⟩
  · intro i hi
    exact hchar i (by rw [hrlen] at hi; omega)
  · intro x hx
    obtain ⟨j, hj⟩ := List.mem_iff_getElem?.1 hx
    have hjlt : j < (consecDists positions).length + 1 := by
      have := (List.getElem?_eq_some_iff.1 hj).1
      rw [hrlen] at this
      omega
    rw [hchar j hjlt] at hj
    obtain rfl := Option.some.inj hj
    constructor
    · exact div_nonneg (take_sum_nonneg hlnn j) hTnonneg
    · rw [div_le_one hTpos]
      exact take_sum_le_sum hlnn j
  · intro i x y hx hy
    have hilt : i + 1 < (consecDists positions).length + 1 := by
      have := (List.getElem?_eq_some_iff.1 hy).1
      rw [hrlen] at this
      omega
    rw [hchar i (by omega)] at hx
    rw [hchar (i + 1) hilt] at hy
    obtain rfl := Option.some.inj hx
    obtain rfl := Option.some.inj hy
    exact (div_le_div_iff_of_pos_right hTpos).2 (take_sum_mono hlnn i)
  · rw [hchar 0 (by omega)]
    rw [List.take_zero, List.sum_nil, zero_div]
  · have harc : (0 : ℝ) :: cumsum (consecDists positions) =
        0 :: cumsum (consecDists positions) := rfl
    rw [map_getLastD _ (cumsum (consecDists positions)) 0 0 0, hlast, div_self hsum]

/-- C2 witness: the two points `(0,0,0)` and `(1,0,0)`, at distance 1. -/
theorem arc_length_parametrization_spec_witness :
    2 ≤ [((0 : ℝ), (0 : ℝ), (0 : ℝ)), (1, 0, 0)].length ∧
    (consecDists [((0 : ℝ), (0 : ℝ), (0 : ℝ)), (1, 0, 0)]).sum ≠ 0 ∧
    (∃ r, compute_arc_length_parametrization
        [((0 : ℝ), (0 : ℝ), (0 : ℝ)), (1, 0, 0)] = .ok r ∧
      r.length = [((0 : ℝ), (0 : ℝ), (0 : ℝ)), (1, 0, 0)].length ∧
      (∀ i, i < r.length → r[i]? =
        some (((consecDists [((0 : ℝ), (0 : ℝ), (0 : ℝ)), (1, 0, 0)]).take i).sum /
          (consecDists [((0 : ℝ), (0 : ℝ), (0 : ℝ)), (1, 0, 0)]).sum)) ∧
      (∀ x ∈ r, 0 ≤ x ∧ x ≤ 1) ∧
      (∀ i x y, r[i]? = some x → r[i + 1]? = some y → x ≤ y) ∧
      r[0]? = some 0 ∧
      r.getLastD 0 = 1) := by
  have hs : (consecDists [((0 : ℝ), (0 : ℝ), (0 : ℝ)), (1, 0, 0)]).sum ≠ 0 := by
    norm_num [consecDists, dist3]
  exact ⟨by norm_num, hs,
    arc_length_parametrization_spec [((0 : ℝ), (0 : ℝ), (0 : ℝ)), (1, 0, 0)]
      (by norm_num) hs⟩

/-- C6: the parametrizer fails with `InsufficientPoints` exactly on inputs of
fewer than 2 points, fails with `ZeroArcLength` exactly on inputs of ≥ 2
points with zero total distance — in particular on three copies of `(1,1,1)`
— and returns normally on every other input (exact real arithmetic; the
division by the positive total cannot produce a NaN). -/
theorem arc_length_parametrization_errors :
    (∀ ps : List (ℝ × ℝ × ℝ), ps.length < 2 →
      compute_arc_length_parametrization ps = .error .InsufficientPoints) ∧
    (∀ ps : List (ℝ × ℝ × ℝ), 2 ≤ ps.length → (consecDists ps).sum = 0 →
      compute_arc_length_parametrization ps = .error .ZeroArcLength) ∧
    compute_arc_length_parametrization [((1 : ℝ), (1 : ℝ), (1 : ℝ)), (1, 1, 1), (1, 1, 1)] =
      .error .ZeroArcLength ∧
    (∀ ps : List (ℝ × ℝ × ℝ), 2 ≤ ps.length → (consecDists ps).sum ≠ 0 →
      ∃ r, compute_arc_length_parametrization ps = .ok r) := by
  refine ⟨?_, ?_, ?_, ?_⟩
  · intro ps h
    unfold compute_arc_length_parametrization
    rw [if_pos h]
  · intro ps h2 h0
    unfold compute_arc_length_parametrization
    rw [if_neg (not_lt.2 h2), if_pos h0]
  · have h0 : (consecDists [((1 : ℝ), (1 : ℝ), (1 : ℝ)), (1, 1, 1), (1, 1, 1)]).sum = 0 := by
      norm_num [consecDists, dist3]
    unfold compute_arc_length_parametrization
    rw [if_neg (by norm_num), if_pos h0]
  · intro ps h2 hs
    unfold compute_arc_length_parametrization
    rw [if_neg (not_lt.2 h2), if_neg hs]
    exact ⟨_, rfl⟩

/-- C6 witness: an empty input, two coincident points, and two distinct
points. -/
theorem arc_length_parametrization_errors_witness :
    compute_arc_length_parametrization ([] : List (ℝ × ℝ × ℝ)) =
      .error .InsufficientPoints ∧
    compute_arc_length_parametrization [((2 : ℝ), (3 : ℝ), (4 : ℝ)), (2, 3, 4)] =
      .error .ZeroArcLength ∧
    (∃ r, compute_arc_length_parametrization
      [((0 : ℝ), (0 : ℝ), (0 : ℝ)), (1, 0, 0)] = .ok r) := by
  refine ⟨arc_length_parametrization_errors.1 [] (by norm_num),
    arc_length_parametrization_errors.2.1 _ (by norm_num) ?_,
    arc_length_parametrization_errors.2.2.2 _ (by norm_num) ?_⟩
  · norm_num [consecDists, dist3]
  · norm_num [consecDists, dist3]

end Claims

theorem mem_of_getElem?_eq_some {α : Type} {l : List α} {i : ℕ} {a : α}
    (h : l[i]? = some a) : a ∈ l := by
  obtain ⟨hlt, heq⟩ := List.getElem?_eq_some_iff.1 h
  exact heq ▸ List.getElem_mem hlt

theorem mem_zipWith {α β γ : Type} {f : α → β → γ} {l : List α} {l' : List β} {x : γ}
    (hx : x ∈ List.zipWith f l l') : ∃ a ∈ l, ∃ b ∈ l', x = f a b := by
  obtain ⟨i, hi⟩ := List.mem_iff_getElem?.1 hx
  rw [List.getElem?_zipWith'] at hi
  cases ha : l[i]? with
  | none => rw [ha] at hi; simp at hi
  | some a =>
    cases hb : l'[i]? with
    | none => rw [ha, hb] at hi; simp at hi
    | some b =>
      rw [ha, hb] at hi
      simp only [Option.map_some', Option.some_bind, Option.some.injEq] at hi
      exact ⟨a, mem_of_getElem?_eq_some ha, b, mem_of_getElem?_eq_some hb, hi.symm⟩

/-- `(P - E) ** 2` as a single rowwise `zipWith`. -/
theorem matSq_matSub_eq (P E : List (List ℝ)) :
    matSq (matSub P E) =
      List.zipWith (fun rp re => List.zipWith (fun a b => (a - b) ^ 2) rp re) P E := by
  rw [matSq, matSub, List.map_zipWith]
  congr 1
  funext rp re
  rw [List.map_zipWith]

theorem colSums_getElem? :
    ∀ (M : List (List ℝ)) (c j : ℕ), (∀ r ∈ M, r.length = c) → j < c → M ≠ [] →
      (colSums M)[j]? = some ((M.map (fun r => r.getD j 0)).sum) := by
  intro M
  induction M with
  | nil => intro c j _ _ h; exact absurd rfl h
  | cons r M' ih =>
    intro c j hall hj _
    have hr : r.length = c := hall r (List.mem_cons_self r M')
    have hjr : j < r.length := by omega
    cases M' with
    | nil =>
      show r[j]? = _
      rw [List.getElem?_eq_getElem hjr]
      simp only [List.map_cons, List.map_nil, List.sum_cons, List.sum_nil, add_zero,
        Option.some.injEq]
      rw [getD_in_range r 0 hjr]
    | cons r2 rest =>
      show (List.zipWith (fun a b => a + b) r (colSums (r2 :: rest)))[j]? = _
      rw [List.getElem?_zipWith']
      rw [List.getElem?_eq_getElem hjr]
      rw [ih c j (fun s hs => hall s (List.mem_cons_of_mem r hs)) hj (by simp)]
      simp only [Option.map_some', Option.some_bind, List.map_cons, List.sum_cons]
      rw [getD_in_range r 0 hjr]

/-- Extracting channel `j` from the squared-difference matrix. -/
theorem col_extract :
    ∀ (P E : List (List ℝ)) (c j : ℕ),
      (∀ r ∈ P, r.length = c) → (∀ r ∈ E, r.length = c) → j < c →
      (List.zipWith (fun rp re => List.zipWith (fun a b => (a - b) ^ 2) rp re) P E).map
          (fun r => r.getD j 0) =
        List.zipWith (fun rp re => (rp.getD j 0 - re.getD j 0) ^ 2) P E := by
  intro P
  induction P with
  | nil => intro E c j _ _ _; simp
  | cons rp P' ih =>
    intro E c j hP hE hj
    cases E with
    | nil => simp
    | cons re E' =>
      rw [List.zipWith_cons_cons, List.map_cons, List.zipWith_cons_cons]
      congr 1
      · have hrp : rp.length = c := hP rp (List.mem_cons_self _ _)
        have hre : re.length = c := hE re (List.mem_cons_self _ _)
        have hjz : j < (List.zipWith (fun a b => (a - b) ^ 2) rp re).length := by
          rw [List.length_zipWith, hrp, hre, min_self]
          exact hj
        rw [getD_in_range _ 0 hjz, List.getElem_zipWith]
        rw [getD_in_range rp 0 (by omega), getD_in_range re 0 (by omega)]
      · exact ih E' c j (fun r hr => hP r (List.mem_cons_of_mem _ hr))
          (fun r hr => hE r (List.mem_cons_of_mem _ hr)) hj

/-- The row sums of the squared-difference matrix. -/
theorem rowSums_eq (P E : List (List ℝ)) :
    (matSq (matSub P E)).map List.sum =
      List.zipWith (fun rp re => (List.zipWith (fun a b => (a - b) ^ 2) rp re).sum) P E := by
  rw [matSq_matSub_eq, List.map_zipWith]

theorem matSq_matSub_length (P E : List (List ℝ)) :
    (matSq (matSub P E)).length = min P.length E.length := by
  rw [matSq_matSub_eq, List.length_zipWith]

theorem matSq_matSub_rows {P E : List (List ℝ)} {c : ℕ}
    (hP : ∀ r ∈ P, r.length = c) (hE : ∀ r ∈ E, r.length = c) :
    ∀ r ∈ matSq (matSub P E), r.length = c := by
  intro r hr
  rw [matSq_matSub_eq] at hr
  obtain ⟨a, ha, b, hb, rfl⟩ := mem_zipWith hr
  rw [List.length_zipWith, hP a ha, hE b hb, min_self]

theorem matSq_matSub_entry_nonneg (P E : List (List ℝ)) :
    ∀ r ∈ matSq (matSub P E), ∀ x ∈ r, 0 ≤ x := by
  intro r hr x hx
  rw [matSq_matSub_eq] at hr
  obtain ⟨a, _, b, _, rfl⟩ := mem_zipWith hr
  obtain ⟨u, _, v, _, rfl⟩ := mem_zipWith hx
  exact sq_nonneg _

/-- Row sums of squared differences of 3-channel rows, written out per the
Euclidean-norm formula. -/
theorem rowSums3_eq :
    ∀ (P E : List (List ℝ)),
      (∀ r ∈ P, r.length = 3) → (∀ r ∈ E, r.length = 3) →
      List.zipWith (fun rp re => (List.zipWith (fun a b => (a - b) ^ 2) rp re).sum) P E =
        List.zipWith (fun rp re =>
          (rp.getD 0 0 - re.getD 0 0) ^ 2 + (rp.getD 1 0 - re.getD 1 0) ^ 2 +
            (rp.getD 2 0 - re.getD 2 0) ^ 2) P E := by
  intro P
  induction P with
  | nil => intro E _ _; simp
  | cons rp P' ih =>
    intro E hP hE
    cases E with
    | nil => simp
    | cons re E' =>
      rw [List.zipWith_cons_cons, List.zipWith_cons_cons]
      congr 1
      · obtain ⟨a1, a2, a3, rfl⟩ :=
          List.length_eq_three.1 (hP rp (List.mem_cons_self _ _))
        obtain ⟨b1, b2, b3, rfl⟩ :=
          List.length_eq_three.1 (hE re (List.mem_cons_self _ _))
        simp only [List.zipWith_cons_cons, List.zipWith_nil_left, List.zipWith_nil_right,
          List.sum_cons, List.sum_nil, add_zero, List.getD_cons_zero, List.getD_cons_succ]
        ring
      · exact ih E' (fun r hr => hP r (List.mem_cons_of_mem _ hr))
          (fun r hr => hE r (List.mem_cons_of_mem _ hr))

/-- The total sum of squared differences is positive as soon as one entry of
`P` differs from the corresponding entry of `E` (within the common shape). -/
theorem total_sq_sum_pos {P E : List (List ℝ)} {n c : ℕ}
    (hPn : P.length = n) (hEn : E.length = n)
    (hPc : ∀ r ∈ P, r.length = c) (hEc : ∀ r ∈ E, r.length = c)
    {i j : ℕ} (hi : i < n) (hj : j < c)
    (hne : (P.getD i []).getD j 0 ≠ (E.getD i []).getD j 0) :
    0 < ((matSq (matSub P E)).map List.sum).sum := by
  have hiP : i < P.length := by omega
  have hiE : i < E.length := by omega
  have hj1 : j < P[i].length := by rw [hPc P[i] (List.getElem_mem hiP)]; exact hj
  have hj2 : j < E[i].length := by rw [hEc E[i] (List.getElem_mem hiE)]; exact hj
  rw [getD_in_range P [] hiP, getD_in_range E [] hiE,
    getD_in_range P[i] 0 hj1, getD_in_range E[i] 0 hj2] at hne
  have hrow : (matSq (matSub P E))[i]? =
      some (List.zipWith (fun a b => (a - b) ^ 2) P[i] E[i]) := by
    rw [matSq_matSub_eq, List.getElem?_zipWith',
      List.getElem?_eq_getElem hiP, List.getElem?_eq_getElem hiE]
    rfl
  have hmemrow : List.zipWith (fun a b => (a - b) ^ 2) P[i] E[i] ∈ matSq (matSub P E) :=
    mem_of_getElem?_eq_some hrow
  have hentry : (List.zipWith (fun a b => (a - b) ^ 2) P[i] E[i])[j]? =
      some ((P[i][j] - E[i][j]) ^ 2) := by
    rw [List.getElem?_zipWith',
      List.getElem?_eq_getElem hj1, List.getElem?_eq_getElem hj2]
    rfl
  have hmementry : (P[i][j] - E[i][j]) ^ 2 ∈
      List.zipWith (fun a b => (a - b) ^ 2) P[i] E[i] :=
    mem_of_getElem?_eq_some hentry
  have hpos : (0 : ℝ) < (P[i][j] - E[i][j]) ^ 2 :=
    pow_two_pos_of_ne_zero (sub_ne_zero.2 hne)
  have hle1 : (P[i][j] - E[i][j]) ^ 2 ≤
      (List.zipWith (fun a b => (a - b) ^ 2) P[i] E[i]).sum :=
    List.single_le_sum (matSq_matSub_entry_nonneg P E _ hmemrow) _ hmementry
  have hmem2 : (List.zipWith (fun a b => (a - b) ^ 2) P[i] E[i]).sum ∈
      (matSq (matSub P E)).map List.sum :=
    List.mem_map.2 ⟨_, hmemrow, rfl⟩
  have hnn : ∀ y ∈ (matSq (matSub P E)).map List.sum, 0 ≤ y := by
    intro y hy
    obtain ⟨r, hr, rfl⟩ := List.mem_map.1 hy
    exact List.sum_nonneg (matSq_matSub_entry_nonneg P E r hr)
  have hle2 : (List.zipWith (fun a b => (a - b) ^ 2) P[i] E[i]).sum ≤
      ((matSq (matSub P E)).map List.sum).sum :=
    List.single_le_sum hnn _ hmem2
  linarith

namespace Claims

/-- C8: for equal-shape resampled trajectories (`n` points, `c` channels), the
per-channel RMSE at channel `j` is the square root of the mean over the `n`
points of the squared difference in channel `j`, and the aggregate RMSE is the
square root of the mean of the squared differences over all `n*c`
(point, channel) pairs combined. -/
theorem rmse_per_channel_and_total (P E : List (List ℝ)) (n c : ℕ)
    (hPn : P.length = n) (hEn : E.length = n) (hn : 0 < n)
    (hPc : ∀ r ∈ P, r.length = c) (hEc : ∀ r ∈ E, r.length = c) :
    (∀ j, j < c → (rmse P E)[j]? =
      some (Real.sqrt
        ((List.zipWith (fun rp re => (rp.getD j 0 - re.getD j 0) ^ 2) P E).sum / (n : ℝ)))) ∧
    total_rmse P E =
      Real.sqrt
        ((List.zipWith (fun rp re => (List.zipWith (fun a b => (a - b) ^ 2) rp re).sum)
            P E).sum / ((n : ℝ) * (c : ℝ))) := by
  have hDlen : (matSq (matSub P E)).length = n := by
    rw [matSq_matSub_length, hPn, hEn, min_self]
  have hDne : matSq (matSub P E) ≠ [] := by
    intro h
    rw [h] at hDlen
    simp at hDlen
    omega
  have hDrows := matSq_matSub_rows hPc hEc
  constructor
  · intro j hj
    rw [rmse, meanAxis0, List.getElem?_map, List.getElem?_map,
      colSums_getElem? _ c j hDrows hj hDne]
    rw [matSq_matSub_eq, col_extract P E c j hPc hEc hj]
    rw [List.length_zipWith, hPn, hEn, min_self]
    rfl
  · rw [total_rmse, meanAll, rowSums_eq, hDlen]
    obtain ⟨r0, D', hD0⟩ : ∃ a l, matSq (matSub P E) = a :: l := by
      cases hD : matSq (matSub P E) with
      | nil => exact absurd hD hDne
      | cons a l => exact ⟨a, l, rfl⟩
    have hr0 : r0.length = c := hDrows r0 (hD0 ▸ List.mem_cons_self _ _)
    rw [hD0, List.headD_cons, hr0]

/-- C8 witness: `P = [[0, 0], [3, 4]]`, `E = [[0, 0], [0, 0]]`, `n = c = 2`. -/
theorem rmse_per_channel_and_total_witness :
    ([[(0 : ℝ), 0], [3, 4]].length = 2 ∧ [[(0 : ℝ), 0], [0, 0]].length = 2 ∧ 0 < 2 ∧
      (∀ r ∈ [[(0 : ℝ), 0], [3, 4]], r.length = 2) ∧
      (∀ r ∈ [[(0 : ℝ), 0], [0, 0]], r.length = 2)) ∧
    ((∀ j, j < 2 → (rmse [[(0 : ℝ), 0], [3, 4]] [[(0 : ℝ), 0], [0, 0]])[j]? =
      some (Real.sqrt
        ((List.zipWith (fun rp re => (rp.getD j 0 - re.getD j 0) ^ 2)
            [[(0 : ℝ), 0], [3, 4]] [[(0 : ℝ), 0], [0, 0]]).sum / ((2 : ℕ) : ℝ)))) ∧
      total_rmse [[(0 : ℝ), 0], [3, 4]] [[(0 : ℝ), 0], [0, 0]] =
        Real.sqrt
          ((List.zipWith (fun rp re => (List.zipWith (fun a b => (a - b) ^ 2) rp re).sum)
              [[(0 : ℝ), 0], [3, 4]] [[(0 : ℝ), 0], [0, 0]]).sum /
            (((2 : ℕ) : ℝ) * ((2 : ℕ) : ℝ)))) := by
  have hP : ∀ r ∈ [[(0 : ℝ), 0], [3, 4]], r.length = 2 := by
    intro r hr
    simp only [List.mem_cons, List.not_mem_nil, or_false] at hr
    rcases hr with rfl | rfl <;> rfl
  have hE : ∀ r ∈ [[(0 : ℝ), 0], [0, 0]], r.length = 2 := by
    intro r hr
    simp only [List.mem_cons, List.not_mem_nil, or_false] at hr
    rcases hr with rfl | rfl <;> rfl
  exact ⟨⟨rfl, rfl, by norm_num, hP, hE⟩,
    rmse_per_channel_and_total _ _ 2 2 rfl rfl (by norm_num) hP hE⟩

/-- C9: for equal-length 3-channel Cartesian trajectories, the aggregate 3-D
RMSE is the square root of the mean over the points of the squared Euclidean
norm of the per-point position difference; and whenever some entry deviates,
it differs from the joint-space aggregate convention (`total_rmse`), which
divides by `n*3` instead of `n`. -/
theorem rmse_3d_formula (P E : List (List ℝ)) (n : ℕ)
    (hPn : P.length = n) (hEn : E.length = n) (hn : 0 < n)
    (hPc : ∀ r ∈ P, r.length = 3) (hEc : ∀ r ∈ E, r.length = 3) :
    rmse_3d P E =
      Real.sqrt
        ((List.zipWith (fun rp re =>
            (rp.getD 0 0 - re.getD 0 0) ^ 2 + (rp.getD 1 0 - re.getD 1 0) ^ 2 +
              (rp.getD 2 0 - re.getD 2 0) ^ 2) P E).sum / (n : ℝ)) ∧
    ((∃ i j, i < n ∧ j < 3 ∧ (P.getD i []).getD j 0 ≠ (E.getD i []).getD j 0) →
      rmse_3d P E ≠ total_rmse P E) := by
  have hDlen : (matSq (matSub P E)).length = n := by
    rw [matSq_matSub_length, hPn, hEn, min_self]
  have hDne : matSq (matSub P E) ≠ [] := by
    intro h
    rw [h] at hDlen
    simp at hDlen
    omega
  have hform : rmse_3d P E =
      Real.sqrt (((matSq (matSub P E)).map List.sum).sum / (n : ℝ)) := by
    rw [rmse_3d, meanList, sumAxis1, List.length_map, hDlen]
  constructor
  · rw [hform, rowSums_eq, rowSums3_eq P E hPc hEc]
  · rintro ⟨i, j, hi, hj, hne⟩
    have hS : 0 < ((matSq (matSub P E)).map List.sum).sum :=
      total_sq_sum_pos hPn hEn hPc hEc hi hj hne
    have hform' : total_rmse P E =
        Real.sqrt (((matSq (matSub P E)).map List.sum).sum / ((n : ℝ) * 3)) := by
      rw [total_rmse, meanAll, hDlen]
      obtain ⟨r0, D', hD0⟩ : ∃ a l, matSq (matSub P E) = a :: l := by
        cases hD : matSq (matSub P E) with
        | nil => exact absurd hD hDne
        | cons a l => exact ⟨a, l, rfl⟩
      have hr0 : r0.length = 3 :=
        matSq_matSub_rows hPc hEc r0 (hD0 ▸ List.mem_cons_self _ _)
      rw [hD0, List.headD_cons, hr0]
      norm_num
    rw [hform, hform']
    have hcast : (0 : ℝ) < (n : ℝ) := by exact_mod_cast hn
    have hlt : ((matSq (matSub P E)).map List.sum).sum / ((n : ℝ) * 3) <
        ((matSq (matSub P E)).map List.sum).sum / (n : ℝ) := by
      apply div_lt_div_of_pos_left hS hcast
      nlinarith
    intro heq
    have := Real.sqrt_lt_sqrt (by positivity) hlt
    rw [heq] at this
    exact lt_irrefl _ this

/-- C9 witness: a single point deviating in the first channel. -/
theorem rmse_3d_formula_witness :
    ([[(1 : ℝ), 0, 0]].length = 1 ∧ [[(0 : ℝ), 0, 0]].length = 1 ∧ 0 < 1 ∧
      (∀ r ∈ [[(1 : ℝ), 0, 0]], r.length = 3) ∧
      (∀ r ∈ [[(0 : ℝ), 0, 0]], r.length = 3)) ∧
    (rmse_3d [[(1 : ℝ), 0, 0]] [[(0 : ℝ), 0, 0]] =
      Real.sqrt
        ((List.zipWith (fun rp re =>
            (rp.getD 0 0 - re.getD 0 0) ^ 2 + (rp.getD 1 0 - re.getD 1 0) ^ 2 +
              (rp.getD 2 0 - re.getD 2 0) ^ 2)
            [[(1 : ℝ), 0, 0]] [[(0 : ℝ), 0, 0]]).sum / ((1 : ℕ) : ℝ)) ∧
    ((∃ i j, i < 1 ∧ j < 3 ∧
        ([[(1 : ℝ), 0, 0]].getD i []).getD j 0 ≠ ([[(0 : ℝ), 0, 0]].getD i []).getD j 0) →
      rmse_3d [[(1 : ℝ), 0, 0]] [[(0 : ℝ), 0, 0]] ≠
        total_rmse [[(1 : ℝ), 0, 0]] [[(0 : ℝ), 0, 0]])) := by
  have hP : ∀ r ∈ [[(1 : ℝ), 0, 0]], r.length = 3 := by
    intro r hr
    simp only [List.mem_cons, List.not_mem_nil, or_false] at hr
    subst hr
    rfl
  have hE : ∀ r ∈ [[(0 : ℝ), 0, 0]], r.length = 3 := by
    intro r hr
    simp only [List.mem_cons, List.not_mem_nil, or_false] at hr
    subst hr
    rfl
  exact ⟨⟨rfl, rfl, by norm_num, hP, hE⟩,
    rmse_3d_formula _ _ 1 rfl rfl (by norm_num) hP hE⟩

end Claims

theorem mem_uniqueSorted {α : Type} [LinearOrder α] [DecidableEq α] {s : List α} {v : α} :
    v ∈ uniqueSorted s ↔ v ∈ s := by
  rw [uniqueSorted, (List.perm_insertionSort _ _).mem_iff, List.mem_dedup]

theorem uniqueSorted_sorted_lt {α : Type} [LinearOrder α] [DecidableEq α] (s : List α) :
    (uniqueSorted s).Sorted (· < ·) :=
  (List.sorted_insertionSort _ _).lt_of_le
    ((List.perm_insertionSort _ _).nodup_iff.2 (List.nodup_dedup s))

theorem indexOf_lt_indexOf {α : Type} [LinearOrder α] [DecidableEq α] {s : List α}
    (hs : s.Sorted (· ≤ ·)) {u v : α} (hu : u ∈ s) (hv : v ∈ s) (huv : u < v) :
    s.indexOf u < s.indexOf v := by
  by_contra hcon
  push_neg at hcon
  have hul := List.indexOf_lt_length.2 hu
  have hvl := List.indexOf_lt_length.2 hv
  rcases eq_or_lt_of_le hcon with heq | hlt
  · exact absurd ((List.indexOf_inj hv hu).1 heq) (ne_of_gt huv)
  · have hrel := List.Sorted.rel_get_of_lt hs
      (a := ⟨s.indexOf v, hvl⟩) (b := ⟨s.indexOf u, hul⟩) hlt
    rw [List.indexOf_get, List.indexOf_get] at hrel
    exact absurd hrel (not_le.2 huv)

theorem uniqueFirstIndices_bounds {α : Type} [LinearOrder α] [DecidableEq α] (s : List α) :
    ∀ i ∈ uniqueFirstIndices s, i < s.length := by
  intro i hi
  obtain ⟨v, hv, rfl⟩ := List.mem_map.1 hi
  exact List.indexOf_lt_length.2 (mem_uniqueSorted.1 hv)

theorem uniqueFirstIndices_pairwise {α : Type} [LinearOrder α] [DecidableEq α] {s : List α}
    (hs : s.Sorted (· ≤ ·)) : (uniqueFirstIndices s).Pairwise (· < ·) := by
  rw [uniqueFirstIndices, List.pairwise_map]
  exact List.Pairwise.imp_of_mem
    (fun ha hb hab =>
      indexOf_lt_indexOf hs (mem_uniqueSorted.1 ha) (mem_uniqueSorted.1 hb) hab)
    (uniqueSorted_sorted_lt s)

theorem filterMap_getElem?_length {γ : Type} :
    ∀ (I : List ℕ) (l : List γ), (∀ i ∈ I, i < l.length) →
      (I.filterMap (fun i => l[i]?)).length = I.length := by
  intro I
  induction I with
  | nil => intro l _; rfl
  | cons i I' ih =>
    intro l h
    have hi : i < l.length := h i (List.mem_cons_self _ _)
    simp only [List.filterMap_cons, List.getElem?_eq_getElem hi, List.length_cons]
    rw [ih l (fun k hk => h k (List.mem_cons_of_mem _ hk))]

namespace Claims

/-- C7: on a monotonically non-decreasing coordinate sequence with matching
values, the duplicate-point filter returns two equal-length subsequences; the
kept indices are strictly increasing (original order preserved), each kept
index is the first occurrence of its coordinate value, every coordinate
value's first occurrence is kept, and the outputs are exactly the coordinates
and values at those indices. -/
theorem remove_duplicate_points_spec {α β : Type} [LinearOrder α] [DecidableEq α]
    (s : List α) (positions : List β)
    (hlen : s.length = positions.length) (hsorted : s.Sorted (· ≤ ·)) :
    ((remove_duplicate_points s positions).1).length =
      ((remove_duplicate_points s positions).2).length ∧
    (uniqueFirstIndices s).Pairwise (· < ·) ∧
    (∀ i ∈ uniqueFirstIndices s, i < s.length) ∧
    (∀ i ∈ uniqueFirstIndices s, ∀ k, k < i → s[k]? ≠ s[i]?) ∧
    (∀ v ∈ s, s.indexOf v ∈ uniqueFirstIndices s) ∧
    (remove_duplicate_points s positions).1 =
      (uniqueFirstIndices s).filterMap (fun i => s[i]?) ∧
    (remove_duplicate_points s positions).2 =
      (uniqueFirstIndices s).filterMap (fun i => positions[i]?) := by
  have hbounds := uniqueFirstIndices_bounds s
  refine ⟨?_, uniqueFirstIndices_pairwise hsorted, hbounds, ?_, ?_, rfl, rfl⟩
  · rw [remove_duplicate_points]
    rw [filterMap_getElem?_length _ s hbounds,
      filterMap_getElem?_length _ positions (fun i hi => hlen ▸ hbounds i hi)]
  · intro i hi k hk
    obtain ⟨v, hv, rfl⟩ := List.mem_map.1 hi
    have hvs : v ∈ s := mem_uniqueSorted.1 hv
    have hvl := List.indexOf_lt_length.2 hvs
    have hkl : k < s.length := lt_trans hk hvl
    rw [List.getElem?_eq_getElem hkl, List.getElem?_eq_getElem hvl]
    intro hcontra
    obtain heq := Option.some.inj hcontra
    have hne := getElem_lt_indexOf_ne (a := v) hkl hk
    apply hne
    rw [heq]
    exact List.indexOf_get hvl
  · intro v hv
    exact List.mem_map.2 ⟨v, mem_uniqueSorted.2 hv, rfl⟩

/-- C7 witness: the spec's boundary example scaled by 10 to stay in integer
rationals, `s = [0, 2, 2, 5, 10]` with values `[10, 20, 30, 40, 50]`: the
output has length 4 and the value kept at coordinate 2 is `20`, the one at
index 1. -/
theorem remove_duplicate_points_spec_witness :
    ([(0 : ℚ), 2, 2, 5, 10].length = [(10 : ℚ), 20, 30, 40, 50].length ∧
      [(0 : ℚ), 2, 2, 5, 10].Sorted (· ≤ ·)) ∧
    (((remove_duplicate_points [(0 : ℚ), 2, 2, 5, 10] [(10 : ℚ), 20, 30, 40, 50]).1).length =
      ((remove_duplicate_points [(0 : ℚ), 2, 2, 5, 10] [(10 : ℚ), 20, 30, 40, 50]).2).length ∧
      (uniqueFirstIndices [(0 : ℚ), 2, 2, 5, 10]).Pairwise (· < ·) ∧
      (∀ i ∈ uniqueFirstIndices [(0 : ℚ), 2, 2, 5, 10], i < [(0 : ℚ), 2, 2, 5, 10].length) ∧
      (∀ i ∈ uniqueFirstIndices [(0 : ℚ), 2, 2, 5, 10], ∀ k, k < i →
        [(0 : ℚ), 2, 2, 5, 10][k]? ≠ [(0 : ℚ), 2, 2, 5, 10][i]?) ∧
      (∀ v ∈ [(0 : ℚ), 2, 2, 5, 10],
        [(0 : ℚ), 2, 2, 5, 10].indexOf v ∈ uniqueFirstIndices [(0 : ℚ), 2, 2, 5, 10]) ∧
      (remove_duplicate_points [(0 : ℚ), 2, 2, 5, 10] [(10 : ℚ), 20, 30, 40, 50]).1 =
        (uniqueFirstIndices [(0 : ℚ), 2, 2, 5, 10]).filterMap
          (fun i => [(0 : ℚ), 2, 2, 5, 10][i]?) ∧
      (remove_duplicate_points [(0 : ℚ), 2, 2, 5, 10] [(10 : ℚ), 20, 30, 40, 50]).2 =
        (uniqueFirstIndices [(0 : ℚ), 2, 2, 5, 10]).filterMap
          (fun i => [(10 : ℚ), 20, 30, 40, 50][i]?)) ∧
    remove_duplicate_points [(0 : ℚ), 2, 2, 5, 10] [(10 : ℚ), 20, 30, 40, 50] =
      ([0, 2, 5, 10], [10, 20, 40, 50]) := by
  have hsorted : [(0 : ℚ), 2, 2, 5, 10].Sorted (· ≤ ·) := by
    rw [List.sorted_cons]
    refine ⟨by intro b hb; fin_cases hb <;> norm_num, ?_⟩
    rw [List.sorted_cons]
    refine ⟨by intro b hb; fin_cases hb <;> norm_num, ?_⟩
    rw [List.sorted_cons]
    refine ⟨by intro b hb; fin_cases hb <;> norm_num, ?_⟩
    rw [List.sorted_cons]
    refine ⟨by intro b hb; fin_cases hb; norm_num, List.sorted_singleton 10⟩
  exact ⟨⟨rfl, hsorted⟩,
    remove_duplicate_points_spec [(0 : ℚ), 2, 2, 5, 10] [(10 : ℚ), 20, 30, 40, 50]
      rfl hsorted,
    by decide⟩

end Claims

end TrajCompare
